import Mathlib

/-!
Verification of the `events-typed` dispatch core.

The repository `trusktr/events-typed` consists of a compile-time typing layer
(`EventArgs`, `IEventEmitter`) in `src/index.ts` plus a factory
(`makeEventEmitterClass`) that subclasses the runtime `EventEmitter` of the
`events` package.  The typing layer is embedded below from the source; the
runtime dispatcher (registry, `emit`, `once`, removal) is not part of the
repository's own sources, so it is modelled from the specification's dispatch
algorithm and operation table (each such definition says so in its doc
comment).
-/

namespace EventsTyped

/-! ## The type-level payload layer, from `src/index.ts` -/

/-- A shallow model of the TypeScript payload types that the `EventArgs`
conditional type in `src/index.ts` discriminates on: `undefined`, primitive
types, mutable array types and tuple types (which satisfy `extends any[]`),
and `ReadonlyArray` (which does not satisfy `extends any[]`). -/
inductive TSType where
  | undef : TSType
  | num : TSType
  | str : TSType
  | arr : TSType → TSType
  | tuple : List TSType → TSType
  | roArr : TSType → TSType

/-- Whether a payload type satisfies the TypeScript test `extends undefined`
(the first branch of the `EventArgs` conditional type). -/
def extendsUndefined : TSType → Bool
  | TSType.undef => true
  | _ => false

/-- Whether a payload type satisfies the TypeScript test `extends any[]`
(the second branch of the `EventArgs` conditional type): mutable array types
and tuple types do; `ReadonlyArray` does not. -/
def extendsAnyArray : TSType → Bool
  | TSType.arr _ => true
  | TSType.tuple _ => true
  | _ => false

/-- `EventArgs`, translated from `src/index.ts` lines 8-15:
`EventTypes[K] extends undefined ? [] : EventTypes[K] extends any[] ?
EventTypes[K] : [EventTypes[K]]`.  The result is the rest-parameter type of
the listener and of the `emit` argument list for the event. -/
def EventArgs (P : TSType) : TSType :=
  if extendsUndefined P then TSType.tuple []
  else if extendsAnyArray P then P
  else TSType.tuple [P]

/-- The derivation rule as the specification words it (for the refinement
comparison with `EventArgs`): zero parameters if P is the no-payload
sentinel; exactly one parameter of type P if P is an array/tuple type
(treated atomically, not spread); exactly one parameter of type P
otherwise. -/
def EventArgsSpecRule (P : TSType) : TSType :=
  if extendsUndefined P then TSType.tuple []
  else TSType.tuple [P]

/-- Number of parameters a rest-parameter type fixes: a tuple type fixes
exactly its arity; a (variadic) array type fixes no particular arity. -/
def paramCount : TSType → Option Nat
  | TSType.tuple l => some l.length
  | _ => none

/-! ## The dispatcher, modelled from the specification

The runtime registry and dispatch algorithm come from the `events` npm
dependency and are absent from the repository sources; the definitions below
are modelled from the specification (sections 3, 4.2 and 5 of the spec). -/

/-- Modelled from the spec: a registry entry, i.e. a registered listener
record.  A listener is identified by reference identity, modelled as a
natural-number identifier `lid`; `once` is the run-once flag. -/
structure Entry where
  lid : Nat
  once : Bool
  deriving DecidableEq, Repr

/-- Event names (the contract keys are strings in the source). -/
abbrev Name := String

/-- Modelled from the spec: the registry is, per event name that currently
has listeners, an ordered sequence of entries; the name order records first
registration (an emptied name is dropped, "equivalent to never having been
created"). -/
abbrev Registry := List (Name × List Entry)

/-- The listener sequence currently registered for a name (empty when the
name is absent). -/
def getSeq : Registry → Name → List Entry
  | [], _ => []
  | (n, s) :: rest, e => if n = e then s else getSeq rest e

/-- Append an entry to a name's sequence, creating the name at the end of
the registry when absent. -/
def appendEntry : Registry → Name → Entry → Registry
  | [], e, en => [(e, [en])]
  | (n, s) :: rest, e, en =>
    if n = e then (n, s ++ [en]) :: rest else (n, s) :: appendEntry rest e en

/-- Insert an entry at position 0 of a name's sequence, creating the name at
the end of the registry when absent. -/
def prependEntry : Registry → Name → Entry → Registry
  | [], e, en => [(e, [en])]
  | (n, s) :: rest, e, en =>
    if n = e then (n, en :: s) :: rest else (n, s) :: prependEntry rest e en

/-- Remove the first entry whose listener identity is `l` (no-op when none
matches). -/
def removeFirstByLid : List Entry → Nat → List Entry
  | [], _ => []
  | en :: rest, l => if en.lid = l then rest else en :: removeFirstByLid rest l

/-- Remove the first occurrence of the exact entry `tgt` (no-op when none
matches). -/
def removeFirstExact : List Entry → Entry → List Entry
  | [], _ => []
  | en :: rest, tgt => if en = tgt then rest else en :: removeFirstExact rest tgt

/-- Modelled from the spec: `removeListener` removes the first matching
entry (by reference identity) for that name; no-op if absent.  A name whose
sequence becomes empty is dropped from the registry. -/
def removeListener : Registry → Name → Nat → Registry
  | [], _, _ => []
  | (n, s) :: rest, e, l =>
    if n = e then
      (let s2 := removeFirstByLid s l
       if s2.isEmpty then rest else (n, s2) :: rest)
    else (n, s) :: removeListener rest e l

/-- Modelled from the spec: removal of one exact entry from the live
registry (used by the dispatch loop for once-entries).  A name whose
sequence becomes empty is dropped from the registry. -/
def removeEntryExact : Registry → Name → Entry → Registry
  | [], _, _ => []
  | (n, s) :: rest, e, tgt =>
    if n = e then
      (let s2 := removeFirstExact s tgt
       if s2.isEmpty then rest else (n, s2) :: rest)
    else (n, s) :: removeEntryExact rest e tgt

/-- Modelled from the spec: `addListener` appends a listener (once = false)
to the name's sequence. -/
def addListener (d : Registry) (e : Name) (l : Nat) : Registry :=
  appendEntry d e (Entry.mk l false)

/-- Modelled from the spec: `on` is the same operation as `addListener`
(`on` is a reserved token in Lean, hence the primed name). -/
def on' (d : Registry) (e : Name) (l : Nat) : Registry :=
  addListener d e l

/-- Modelled from the spec: `once` appends a listener with the once-flag
set. -/
def once (d : Registry) (e : Name) (l : Nat) : Registry :=
  appendEntry d e (Entry.mk l true)

/-- Modelled from the spec: `prependListener` inserts a listener
(once = false) at position 0. -/
def prependListener (d : Registry) (e : Name) (l : Nat) : Registry :=
  prependEntry d e (Entry.mk l false)

/-- Modelled from the spec: `prependOnceListener` inserts a listener with
the once-flag set at position 0. -/
def prependOnceListener (d : Registry) (e : Name) (l : Nat) : Registry :=
  prependEntry d e (Entry.mk l true)

/-- Modelled from the spec: `removeAllListeners` clears the sequence for
one name, or every sequence when the name is omitted. -/
def removeAllListeners : Registry → Option Name → Registry
  | _, Option.none => []
  | d, Option.some e => d.filter (fun p => decide (p.1 ≠ e))

/-- Modelled from the spec: `listenerCount` is the current sequence length
for the name. -/
def listenerCount (d : Registry) (e : Name) : Nat :=
  (getSeq d e).length

/-- Modelled from the spec: `eventNames` lists the names with at least one
listener, in first-registration order (names are dropped from the registry
when emptied, so the registry's key list is exactly that). -/
def eventNames (d : Registry) : List Name :=
  d.map Prod.fst

/-! ### Listener behaviour and the dispatch algorithm

To state re-entrancy properties, a listener body is a list of commands the
listener performs when invoked: registry mutations, a re-entrant `emit`, or
raising a fault. -/

/-- A command a listener may perform during its invocation. -/
inductive Cmd where
  | onC : Name → Nat → Cmd
  | onceC : Name → Nat → Cmd
  | prependC : Name → Nat → Cmd
  | removeC : Name → Nat → Cmd
  | emitC : Name → List Nat → Cmd
  | throwC : Cmd
  deriving DecidableEq, Repr

/-- An environment assigns each listener identity its body. -/
abbrev Env := Nat → List Cmd

/-- The environment in which every listener does nothing. -/
def pureEnv : Env := fun _ => []

/-- Outcome of a dispatch: normal completion, a listener fault propagating
to the caller, or exhaustion of the recursion fuel (a modelling artifact
bounding re-entrant `emit` depth). -/
inductive Outcome where
  | ok : Outcome
  | fault : Outcome
  | fuelOut : Outcome
  deriving DecidableEq, Repr

/-- Dispatch state: the live registry and the invocation trace (listener
identity and the payload arguments it was passed, in invocation order). -/
structure St where
  d : Registry
  trace : List (Nat × List Nat)
  deriving DecidableEq, Repr

/-- The type of a nested-emit callback handed to the loops below: the next
`emit` level, with one unit of re-entrancy fuel already consumed. -/
abbrev EmitFn := St → Name → List Nat → St × Bool × Outcome

/-- Run the commands of one listener body in order; a fault, or a fault in a
re-entrant emit (performed through `emitFn`), aborts the rest. -/
def runCmdsWith (emitFn : EmitFn) : St → List Cmd → St × Outcome
  | st, [] => (st, Outcome.ok)
  | st, c :: rest =>
    match c with
    | Cmd.throwC => (st, Outcome.fault)
    | Cmd.emitC e2 a2 =>
      let r := emitFn st e2 a2
      match r.2.2 with
      | Outcome.ok => runCmdsWith emitFn r.1 rest
      | oc => (r.1, oc)
    | Cmd.onC e2 l2 => runCmdsWith emitFn (St.mk (addListener st.d e2 l2) st.trace) rest
    | Cmd.onceC e2 l2 => runCmdsWith emitFn (St.mk (once st.d e2 l2) st.trace) rest
    | Cmd.prependC e2 l2 =>
      runCmdsWith emitFn (St.mk (prependListener st.d e2 l2) st.trace) rest
    | Cmd.removeC e2 l2 =>
      runCmdsWith emitFn (St.mk (removeListener st.d e2 l2) st.trace) rest

/-- Modelled from the spec: iterate one dispatch snapshot in order; for each
entry, if its once-flag is set remove that exact entry from the live
registry before invoking it; then invoke the listener with the payload
arguments (recording the invocation in the trace and running the listener's
body).  A fault stops the iteration (fail-fast). -/
def runSeqWith (emitFn : EmitFn) (env : Env) (e : Name) (args : List Nat) :
    St → List Entry → St × Outcome
  | st, [] => (st, Outcome.ok)
  | st, en :: rest =>
    let d1 := if en.once then removeEntryExact st.d e en else st.d
    let st1 : St := St.mk d1 (st.trace ++ [(en.lid, args)])
    let r := runCmdsWith emitFn st1 (env en.lid)
    match r.2 with
    | Outcome.ok => runSeqWith emitFn env e args r.1 rest
    | oc => (r.1, oc)

/-- Modelled from the spec: `emit` takes an immutable snapshot of the
current listener sequence for the name, iterates it, and returns whether any
listener existed at the time of the call.  `fuel` bounds the depth of
re-entrant emits (a modelling artifact; one unit is spent per nesting
level). -/
def runEmit : Nat → Env → St → Name → List Nat → St × Bool × Outcome
  | 0, _, st, _, _ => (st, false, Outcome.fuelOut)
  | Nat.succ f, env, st, e, args =>
    let s := getSeq st.d e
    let r := runSeqWith (runEmit f env) env e args st s
    (r.1, !s.isEmpty, r.2)

/-- Modelled from the spec: one `emit` call starting from a registry with an
empty trace; returns the final registry, the invocation trace, the boolean
result and the outcome. -/
def emit (fuel : Nat) (env : Env) (d : Registry) (e : Name) (args : List Nat) :
    Registry × List (Nat × List Nat) × Bool × Outcome :=
  let r := runEmit fuel env (St.mk d []) e args
  (r.1.d, r.1.trace, r.2.1, r.2.2)

/-! ### Auxiliary notions used by the statements -/

/-- A command is local when it only mutates the registry: it neither
re-enters `emit` nor raises a fault. -/
def Cmd.isLocal : Cmd → Bool
  | Cmd.emitC _ _ => false
  | Cmd.throwC => false
  | _ => true

/-- The registry effect of a local command. -/
def applyLocal (d : Registry) : Cmd → Registry
  | Cmd.onC e l => addListener d e l
  | Cmd.onceC e l => once d e l
  | Cmd.prependC e l => prependListener d e l
  | Cmd.removeC e l => removeListener d e l
  | Cmd.emitC _ _ => d
  | Cmd.throwC => d

/-- An environment is local when every listener body consists of local
commands only. -/
def LocalEnv (env : Env) : Prop :=
  ∀ l, ∀ c ∈ env l, c.isLocal = true

/-- A register/deregister operation at the dispatcher's public interface
(used to quantify over arbitrary operation histories). -/
inductive Op where
  | onO : Name → Nat → Op
  | onceO : Name → Nat → Op
  | prependO : Name → Nat → Op
  | prependOnceO : Name → Nat → Op
  | removeO : Name → Nat → Op
  | removeAllO : Option Name → Op
  deriving DecidableEq, Repr

/-- Apply one public register/deregister operation. -/
def applyOp (d : Registry) : Op → Registry
  | Op.onO e l => on' d e l
  | Op.onceO e l => once d e l
  | Op.prependO e l => prependListener d e l
  | Op.prependOnceO e l => prependOnceListener d e l
  | Op.removeO e l => removeListener d e l
  | Op.removeAllO e => removeAllListeners d e

/-- Apply a history of public operations, oldest first. -/
def applyOps (d : Registry) (ops : List Op) : Registry :=
  ops.foldl applyOp d

/-- The registry invariant maintained by the public operations: names are
pairwise distinct and no name has an empty sequence. -/
def WF (d : Registry) : Prop :=
  (d.map Prod.fst).Nodup ∧ ∀ p ∈ d, p.2 ≠ []

/-! ### Concrete scenarios referenced by the claims -/

/-- Scenario environment: listener 2, when invoked, removes itself, removes
the not-yet-run listener 3, and registers the new listener 4, all for event
"E"; every other listener does nothing. -/
def envRemoveAdd : Env := fun x =>
  if x = 2 then [Cmd.removeC "E" 2, Cmd.removeC "E" 3, Cmd.onC "E" 4] else []

/-- Registry with the three listeners 1, 2, 3 registered for "E". -/
def dThree : Registry :=
  [("E", [Entry.mk 1 false, Entry.mk 2 false, Entry.mk 3 false])]

/-- Registry with the two listeners 1 and 2 registered for "E". -/
def dTwo : Registry := [("E", [Entry.mk 1 false, Entry.mk 2 false])]

/-- Environment where listener `a`, when invoked, removes listener `b` for
event `e`; every other listener does nothing. -/
def removerEnv (e : Name) (a b : Nat) : Env :=
  fun x => if x = a then [Cmd.removeC e b] else []

/-- Environment where listener `l`, when invoked, re-entrantly emits `e`
with `args`; every other listener does nothing. -/
def reentrantEnv (e : Name) (args : List Nat) (l : Nat) : Env :=
  fun x => if x = l then [Cmd.emitC e args] else []

/-- Environment where listener `b` raises a fault when invoked; every other
listener does nothing. -/
def throwerEnv (b : Nat) : Env :=
  fun x => if x = b then [Cmd.throwC] else []

/-! ## Helper lemmas -/

theorem getSeq_appendEntry_self (d : Registry) (e : Name) (en : Entry) :
    getSeq (appendEntry d e en) e = getSeq d e ++ [en] := by
  induction d with
  | nil => simp [appendEntry, getSeq]
  | cons p rest ih =>
    obtain ⟨n, s⟩ := p
    by_cases h : n = e
    · subst h
      simp [appendEntry, getSeq]
    · simp [appendEntry, getSeq, h, ih]

theorem getSeq_prependEntry_self (d : Registry) (e : Name) (en : Entry) :
    getSeq (prependEntry d e en) e = en :: getSeq d e := by
  induction d with
  | nil => simp [prependEntry, getSeq]
  | cons p rest ih =>
    obtain ⟨n, s⟩ := p
    by_cases h : n = e
    · subst h
      simp [prependEntry, getSeq]
    · simp [prependEntry, getSeq, h, ih]

theorem getSeq_eq_nil_of_not_mem (d : Registry) (e : Name)
    (h : e ∉ d.map Prod.fst) : getSeq d e = [] := by
  induction d with
  | nil => simp [getSeq]
  | cons p rest ih =>
    obtain ⟨n, s⟩ := p
    simp only [List.map_cons, List.mem_cons] at h
    push_neg at h
    have hne : ¬ n = e := fun hh => h.1 hh.symm
    simp [getSeq, hne, ih h.2]

/-- A history of local commands leaves the trace alone, succeeds, and folds
its registry effects. -/
theorem runCmdsWith_local (emitFn : EmitFn) (st : St) (cs : List Cmd)
    (h : ∀ c ∈ cs, c.isLocal = true) :
    runCmdsWith emitFn st cs = (St.mk (cs.foldl applyLocal st.d) st.trace, Outcome.ok) := by
  induction cs generalizing st with
  | nil => simp [runCmdsWith]
  | cons c rest ih =>
    have hc : c.isLocal = true := h c (List.mem_cons_self c rest)
    have hrest : ∀ c ∈ rest, c.isLocal = true := fun x hx => h x (List.mem_cons_of_mem c hx)
    cases c with
    | throwC => simp [Cmd.isLocal] at hc
    | emitC e2 a2 => simp [Cmd.isLocal] at hc
    | onC e2 l2 => simpa [runCmdsWith, applyLocal] using ih _ hrest
    | onceC e2 l2 => simpa [runCmdsWith, applyLocal] using ih _ hrest
    | prependC e2 l2 => simpa [runCmdsWith, applyLocal] using ih _ hrest
    | removeC e2 l2 => simpa [runCmdsWith, applyLocal] using ih _ hrest

/-- Under a local environment a dispatch iterates its whole snapshot: every
snapshotted entry is invoked, in snapshot order, with the payload arguments,
and the iteration completes normally. -/
theorem runSeqWith_localEnv (emitFn : EmitFn) (env : Env) (henv : LocalEnv env)
    (e : Name) (args : List Nat) (st : St) (s : List Entry) :
    (runSeqWith emitFn env e args st s).1.trace =
        st.trace ++ s.map (fun en => (en.lid, args)) ∧
      (runSeqWith emitFn env e args st s).2 = Outcome.ok := by
  induction s generalizing st with
  | nil => simp [runSeqWith]
  | cons en rest ih =>
    have hbody := runCmdsWith_local emitFn
      (St.mk (if en.once then removeEntryExact st.d e en else st.d)
        (st.trace ++ [(en.lid, args)]))
      (env en.lid) (henv en.lid)
    have := ih (St.mk ((env en.lid).foldl applyLocal
      (if en.once then removeEntryExact st.d e en else st.d))
      (st.trace ++ [(en.lid, args)]))
    simp only [runSeqWith, hbody] at *
    simpa using this

/-- In the pure environment a dispatch records the snapshot as its trace and
its only registry effect is the removal of once-entries. -/
theorem runSeqWith_pure (emitFn : EmitFn) (e : Name) (args : List Nat)
    (st : St) (s : List Entry) :
    runSeqWith emitFn pureEnv e args st s =
      (St.mk (s.foldl (fun d en => if en.once then removeEntryExact d e en else d) st.d)
        (st.trace ++ s.map (fun en => (en.lid, args))), Outcome.ok) := by
  induction s generalizing st with
  | nil => simp [runSeqWith]
  | cons en rest ih =>
    simp only [runSeqWith, pureEnv, runCmdsWith]
    rw [ih]
    simp

/-- Registering via `on'` repeatedly onto a single-name registry appends the
entries in registration order. -/
theorem foldl_on_single (e : Name) (ls : List Nat) :
    ∀ s : List Entry, ls.foldl (fun d x => on' d e x) [(e, s)] =
      [(e, s ++ ls.map (fun x => Entry.mk x false))] := by
  induction ls with
  | nil => simp
  | cons x rest ih =>
    intro s
    have : on' [(e, s)] e x = [(e, s ++ [Entry.mk x false])] := by
      simp [on', addListener, appendEntry]
    simp only [List.foldl_cons, this, ih]
    simp

/-- Registering `ls` via `on'` and then one listener via `once` builds the
single-name registry with the once-entry last. -/
theorem once_foldl_on (e : Name) (l : Nat) (ls : List Nat) :
    once (ls.foldl (fun d x => on' d e x) []) e l =
      [(e, ls.map (fun x => Entry.mk x false) ++ [Entry.mk l true])] := by
  cases ls with
  | nil => simp [once, appendEntry]
  | cons x rest =>
    have h0 : on' ([] : Registry) e x = [(e, [Entry.mk x false])] := by
      simp [on', addListener, appendEntry]
    simp only [List.foldl_cons, h0, foldl_on_single]
    simp [once, appendEntry]

/-- Full characterization of one `emit` in the pure environment: the trace
is the snapshot, the boolean result reports whether the snapshot was
nonempty, the outcome is normal, and the registry keeps everything except
the once-entries of the dispatched name. -/
theorem emit_pure_char (d : Registry) (e : Name) (args : List Nat) (f : Nat) :
    (emit (f + 1) pureEnv d e args).2.1 = (getSeq d e).map (fun en => (en.lid, args)) ∧
      (emit (f + 1) pureEnv d e args).2.2.1 = !(getSeq d e).isEmpty ∧
      (emit (f + 1) pureEnv d e args).2.2.2 = Outcome.ok ∧
      (emit (f + 1) pureEnv d e args).1 =
        (getSeq d e).foldl (fun d2 en => if en.once then removeEntryExact d2 e en else d2) d := by
  simp [emit, runEmit, runSeqWith_pure]

/-- `emit_pure_char` specialized to one unit of fuel. -/
theorem emit_pure_one (d : Registry) (e : Name) (args : List Nat) :
    (emit 1 pureEnv d e args).2.1 = (getSeq d e).map (fun en => (en.lid, args)) ∧
      (emit 1 pureEnv d e args).2.2.1 = !(getSeq d e).isEmpty ∧
      (emit 1 pureEnv d e args).2.2.2 = Outcome.ok ∧
      (emit 1 pureEnv d e args).1 =
        (getSeq d e).foldl (fun d2 en => if en.once then removeEntryExact d2 e en else d2) d :=
  emit_pure_char d e args 0

/-- Entries with the once-flag unset are untouched by the dispatch loop's
once-removal step. -/
theorem foldl_onceStep_nonOnce (e : Name) (d : Registry) (ls : List Nat) :
    (ls.map (fun x => Entry.mk x false)).foldl
        (fun d2 en => if en.once then removeEntryExact d2 e en else d2) d = d := by
  induction ls generalizing d with
  | nil => simp
  | cons x rest ih => simp [ih]

/-- Removing the exact entry `tgt` from a sequence that ends in `tgt` and
contains it nowhere else keeps the prefix. -/
theorem removeFirstExact_append_last (s : List Entry) (tgt : Entry)
    (h : ∀ en ∈ s, en ≠ tgt) : removeFirstExact (s ++ [tgt]) tgt = s := by
  induction s with
  | nil => simp [removeFirstExact]
  | cons en rest ih =>
    have h1 : en ≠ tgt := h en (List.mem_cons_self en rest)
    simp [removeFirstExact, h1, ih fun x hx => h x (List.mem_cons_of_mem en hx)]

/-- On a single-name registry, exact-entry removal acts on the sequence. -/
theorem getSeq_removeEntryExact_single (e : Name) (s : List Entry) (tgt : Entry) :
    getSeq (removeEntryExact [(e, s)] e tgt) e = removeFirstExact s tgt := by
  by_cases h : (removeFirstExact s tgt).isEmpty
  · simp only [List.isEmpty_iff] at h
    simp [removeEntryExact, getSeq, h]
  · simp [removeEntryExact, getSeq, h]

/-- Registering a list of listeners via `on'` appends them, in order, to the
name's sequence. -/
theorem getSeq_foldl_on (e : Name) (ls : List Nat) :
    ∀ d : Registry, getSeq (ls.foldl (fun d2 x => on' d2 e x) d) e =
      getSeq d e ++ ls.map (fun x => Entry.mk x false) := by
  induction ls with
  | nil => simp
  | cons x rest ih =>
    intro d
    rw [List.foldl_cons, ih]
    simp [on', addListener, getSeq_appendEntry_self]

/-- Registering a list of listeners via `on'`/`once` (by flag) appends the
corresponding entries, in registration order. -/
theorem getSeq_foldl_reg (e : Name) (ls : List (Nat × Bool)) :
    ∀ d : Registry,
      getSeq (ls.foldl (fun d2 p => if p.2 then once d2 e p.1 else on' d2 e p.1) d) e =
        getSeq d e ++ ls.map (fun p => Entry.mk p.1 p.2) := by
  induction ls with
  | nil => simp
  | cons p rest ih =>
    intro d
    have hstep : (if p.2 then once d e p.1 else on' d e p.1) =
        appendEntry d e (Entry.mk p.1 p.2) := by
      cases hp : p.2 <;> simp [once, on', addListener, hp]
    simp [hstep, ih, getSeq_appendEntry_self]

/-- `removeFirstByLid` is the identity when no entry matches. -/
theorem removeFirstByLid_of_forall_ne (s : List Entry) (l : Nat)
    (h : ∀ x ∈ s, x.lid ≠ l) : removeFirstByLid s l = s := by
  induction s with
  | nil => simp [removeFirstByLid]
  | cons en rest ih =>
    have h1 : en.lid ≠ l := h en (List.mem_cons_self en rest)
    simp [removeFirstByLid, h1, ih fun x hx => h x (List.mem_cons_of_mem en hx)]

/-- `removeFirstByLid` removes exactly the first match and keeps everything
after it, matches included. -/
theorem removeFirstByLid_append (s1 : List Entry) (en : Entry) (s2 : List Entry)
    (l : Nat) (h1 : ∀ x ∈ s1, x.lid ≠ l) (hen : en.lid = l) :
    removeFirstByLid (s1 ++ en :: s2) l = s1 ++ s2 := by
  induction s1 with
  | nil => simp [removeFirstByLid, hen]
  | cons x rest ih =>
    have hx : x.lid ≠ l := h1 x (List.mem_cons_self x rest)
    simp [removeFirstByLid, hx, ih fun y hy => h1 y (List.mem_cons_of_mem x hy)]

/-- With pairwise-distinct names, `removeListener` acts on the name's
sequence as first-match removal. -/
theorem getSeq_removeListener (d : Registry) (e : Name) (l : Nat)
    (hd : (d.map Prod.fst).Nodup) :
    getSeq (removeListener d e l) e = removeFirstByLid (getSeq d e) l := by
  induction d with
  | nil => simp [removeListener, getSeq, removeFirstByLid]
  | cons p rest ih =>
    obtain ⟨n, s⟩ := p
    simp only [List.map_cons, List.nodup_cons] at hd
    by_cases h : n = e
    · subst h
      by_cases h2 : (removeFirstByLid s l).isEmpty

      · simp only [List.isEmpty_iff] at h2
        simp [removeListener, getSeq, h2, getSeq_eq_nil_of_not_mem rest n hd.1]
      · simp [removeListener, getSeq, h2]
    · simp [removeListener, getSeq, h, ih hd.2]

/-- `WF` restricts to the tail of the registry. -/
theorem WF_tail (n : Name) (s : List Entry) (rest : Registry)
    (h : WF ((n, s) :: rest)) : WF rest := by
  obtain ⟨h1, h2⟩ := h
  simp only [List.map_cons, List.nodup_cons] at h1
  exact ⟨h1.2, fun p hp => h2 p (List.mem_cons_of_mem _ hp)⟩

/-- On a well-formed registry, `removeListener` with no matching entry is a
no-op. -/
theorem removeListener_no_op (d : Registry) (e : Name) (l : Nat) (hWF : WF d)
    (h : ∀ x ∈ getSeq d e, x.lid ≠ l) : removeListener d e l = d := by
  induction d with
  | nil => simp [removeListener]
  | cons p rest ih =>
    obtain ⟨n, s⟩ := p
    by_cases hn : n = e
    · subst hn
      have hs : getSeq ((n, s) :: rest) n = s := by simp [getSeq]
      rw [hs] at h
      have hid : removeFirstByLid s l = s := removeFirstByLid_of_forall_ne s l h
      have hne : s ≠ [] := hWF.2 (n, s) (List.mem_cons_self _ _)
      simp [removeListener, hid, hne]
    · have hs : getSeq ((n, s) :: rest) e = getSeq rest e := by simp [getSeq, hn]
      rw [hs] at h
      simp [removeListener, hn, ih (WF_tail n s rest hWF) h]

/-- `appendEntry` keeps the name list, adding the name at the end when it
was absent. -/
theorem keys_appendEntry (d : Registry) (e : Name) (en : Entry) :
    (appendEntry d e en).map Prod.fst =
      if e ∈ d.map Prod.fst then d.map Prod.fst else d.map Prod.fst ++ [e] := by
  induction d with
  | nil => simp [appendEntry]
  | cons p rest ih =>
    obtain ⟨n, s⟩ := p
    by_cases h : n = e
    · subst h
      simp [appendEntry]
    · have hne : ¬ e = n := fun hh => h hh.symm
      by_cases h2 : e ∈ rest.map Prod.fst
      · simp [appendEntry, h, ih, h2, hne]
      · simp [appendEntry, h, ih, h2, hne]

/-- `prependEntry` keeps the name list, adding the name at the end when it
was absent. -/
theorem keys_prependEntry (d : Registry) (e : Name) (en : Entry) :
    (prependEntry d e en).map Prod.fst =
      if e ∈ d.map Prod.fst then d.map Prod.fst else d.map Prod.fst ++ [e] := by
  induction d with
  | nil => simp [prependEntry]
  | cons p rest ih =>
    obtain ⟨n, s⟩ := p
    by_cases h : n = e
    · subst h
      simp [prependEntry]
    · have hne : ¬ e = n := fun hh => h hh.symm
      by_cases h2 : e ∈ rest.map Prod.fst
      · simp [prependEntry, h, ih, h2, hne]
      · simp [prependEntry, h, ih, h2, hne]

/-- `appendEntry` creates no empty sequence. -/
theorem entries_appendEntry (d : Registry) (e : Name) (en : Entry) :
    (∀ p ∈ d, p.2 ≠ []) → ∀ p ∈ appendEntry d e en, p.2 ≠ [] := by
  induction d with
  | nil =>
    intro _ p hp
    simp [appendEntry] at hp
    simp [hp]
  | cons q rest ih =>
    obtain ⟨n, s⟩ := q
    intro h p hp
    by_cases hn : n = e
    · subst hn
      simp [appendEntry] at hp
      rcases hp with hp | hp
      · simp [hp]
      · exact h p (List.mem_cons_of_mem _ hp)
    · simp only [appendEntry, if_neg hn, List.mem_cons] at hp
      rcases hp with hp | hp
      · exact h p (by simp [hp])
      · exact ih (fun q hq => h q (List.mem_cons_of_mem _ hq)) p hp

/-- `prependEntry` creates no empty sequence. -/
theorem entries_prependEntry (d : Registry) (e : Name) (en : Entry) :
    (∀ p ∈ d, p.2 ≠ []) → ∀ p ∈ prependEntry d e en, p.2 ≠ [] := by
  induction d with
  | nil =>
    intro _ p hp
    simp [prependEntry] at hp
    simp [hp]
  | cons q rest ih =>
    obtain ⟨n, s⟩ := q
    intro h p hp
    by_cases hn : n = e
    · subst hn
      simp [prependEntry] at hp
      rcases hp with hp | hp
      · simp [hp]
      · exact h p (List.mem_cons_of_mem _ hp)
    · simp only [prependEntry, if_neg hn, List.mem_cons] at hp
      rcases hp with hp | hp
      · exact h p (by simp [hp])
      · exact ih (fun q hq => h q (List.mem_cons_of_mem _ hq)) p hp

/-- `removeListener` creates no empty sequence. -/
theorem entries_removeListener (d : Registry) (e : Name) (l : Nat) :
    (∀ p ∈ d, p.2 ≠ []) → ∀ p ∈ removeListener d e l, p.2 ≠ [] := by
  induction d with
  | nil =>
    intro _ p hp
    simp [removeListener] at hp
  | cons q rest ih =>
    obtain ⟨n, s⟩ := q
    intro h p hp
    by_cases hn : n = e
    · subst hn
      by_cases h2 : (removeFirstByLid s l).isEmpty
      · simp only [removeListener, if_pos rfl, h2, if_pos] at hp
        exact h p (List.mem_cons_of_mem _ hp)
      · simp only [removeListener, if_pos rfl, h2, if_neg] at hp
        rcases List.mem_cons.mp hp with hp | hp
        · subst hp
          simpa [List.isEmpty_iff] using h2
        · exact h p (List.mem_cons_of_mem _ hp)
    · simp only [removeListener, if_neg hn, List.mem_cons] at hp
      rcases hp with hp | hp
      · exact h p (by simp [hp])
      · exact ih (fun q hq => h q (List.mem_cons_of_mem _ hq)) p hp

/-- `appendEntry` preserves the registry invariant. -/
theorem WF_appendEntry (d : Registry) (e : Name) (en : Entry) (h : WF d) :
    WF (appendEntry d e en) := by
  constructor
  · rw [keys_appendEntry]
    by_cases h2 : e ∈ d.map Prod.fst
    · simpa [h2] using h.1
    · simp [h2, List.nodup_append, h.1, List.disjoint_singleton, h2]
  · exact entries_appendEntry d e en h.2

/-- `prependEntry` preserves the registry invariant. -/
theorem WF_prependEntry (d : Registry) (e : Name) (en : Entry) (h : WF d) :
    WF (prependEntry d e en) := by
  constructor
  · rw [keys_prependEntry]
    by_cases h2 : e ∈ d.map Prod.fst
    · simpa [h2] using h.1
    · simp [h2, List.nodup_append, h.1, List.disjoint_singleton, h2]
  · exact entries_prependEntry d e en h.2

/-- `removeListener` only ever drops names. -/
theorem keys_removeListener_sublist (d : Registry) (e : Name) (l : Nat) :
    ((removeListener d e l).map Prod.fst).Sublist (d.map Prod.fst) := by
  induction d with
  | nil => simp [removeListener]
  | cons p rest ih =>
    obtain ⟨n, s⟩ := p
    by_cases h : n = e
    · subst h
      by_cases h2 : (removeFirstByLid s l).isEmpty
      · simp only [removeListener, if_pos rfl, h2, if_pos]
        exact (List.Sublist.refl _).cons n
      · simp only [removeListener, if_pos rfl, h2, if_neg]
        simp
    · simp only [removeListener, if_neg h]
      simpa using ih.cons₂ n

/-- `removeListener` preserves the registry invariant. -/
theorem WF_removeListener (d : Registry) (e : Name) (l : Nat) (h : WF d) :
    WF (removeListener d e l) := by
  constructor
  · exact (keys_removeListener_sublist d e l).nodup h.1
  · exact entries_removeListener d e l h.2

/-- `removeAllListeners` on one name filters the name list, preserving the
order of the remaining names. -/
theorem keys_removeAll_some (d : Registry) (e : Name) :
    (removeAllListeners d (Option.some e)).map Prod.fst =
      (d.map Prod.fst).filter (fun n => decide (n ≠ e)) := by
  induction d with
  | nil => simp [removeAllListeners]
  | cons p rest ih =>
    by_cases h : p.1 = e
    · simp [removeAllListeners, List.filter_cons, h] at ih ⊢
      exact ih
    · simp [removeAllListeners, List.filter_cons, h] at ih ⊢
      exact ih

/-- `removeAllListeners` preserves the registry invariant. -/
theorem WF_removeAllListeners (d : Registry) (oe : Option Name) (h : WF d) :
    WF (removeAllListeners d oe) := by
  cases oe with
  | none => exact ⟨by simp [removeAllListeners], by simp [removeAllListeners]⟩
  | some e =>
    constructor
    · rw [keys_removeAll_some]
      exact h.1.filter _
    · intro p hp
      exact h.2 p (List.mem_of_mem_filter hp)

/-- Every public register/deregister operation preserves the registry
invariant. -/
theorem WF_applyOp (d : Registry) (op : Op) (h : WF d) : WF (applyOp d op) := by
  cases op with
  | onO e l => exact WF_appendEntry d e _ h
  | onceO e l => exact WF_appendEntry d e _ h
  | prependO e l => exact WF_prependEntry d e _ h
  | prependOnceO e l => exact WF_prependEntry d e _ h
  | removeO e l => exact WF_removeListener d e l h
  | removeAllO oe => exact WF_removeAllListeners d oe h

/-- Any history of public operations preserves the registry invariant. -/
theorem WF_applyOps (ops : List Op) : ∀ d : Registry, WF d → WF (applyOps d ops) := by
  induction ops with
  | nil => intro d h; simpa [applyOps] using h
  | cons op rest ih =>
    intro d h
    simpa [applyOps] using ih (applyOp d op) (WF_applyOp d op h)

/-- On a registry with no empty sequences, a name is listed exactly when its
sequence is nonempty. -/
theorem mem_eventNames_iff (d : Registry) (e : Name) (h : ∀ p ∈ d, p.2 ≠ []) :
    e ∈ eventNames d ↔ getSeq d e ≠ [] := by
  induction d with
  | nil => simp [eventNames, getSeq]
  | cons p rest ih =>
    obtain ⟨n, s⟩ := p
    by_cases hn : n = e
    · subst hn
      simp [eventNames, getSeq, h (n, s) (List.mem_cons_self _ _)]
    · have hrest := ih fun p hp => h p (List.mem_cons_of_mem _ hp)
      have hne : ¬ e = n := fun hh => hn hh.symm
      simpa [eventNames, getSeq, hn, hne] using hrest

/-! ## Claims -/

/-- C5 (counterexample): for the tuple payload type `[number, string]`, the
`EventArgs` type of `src/index.ts` produces the tuple itself as the
argument list — two parameters, spread — not one atomic parameter of the
tuple type, contradicting the claim's "exactly one parameter ... passed
atomically, not spread" for array/tuple payload types. -/
theorem eventArgs_array_payload_not_atomic_cex :
    EventArgs (TSType.tuple [TSType.num, TSType.str]) ≠
        EventArgsSpecRule (TSType.tuple [TSType.num, TSType.str]) ∧
      EventArgs (TSType.tuple [TSType.num, TSType.str]) =
        TSType.tuple [TSType.num, TSType.str] ∧
      paramCount (EventArgs (TSType.tuple [TSType.num, TSType.str])) = some 2 ∧
      paramCount (EventArgsSpecRule (TSType.tuple [TSType.num, TSType.str])) = some 1 := by
  refine ⟨?_, rfl, rfl, rfl⟩
  intro h
  simp [EventArgs, EventArgsSpecRule, extendsUndefined, extendsAnyArray] at h

/-- C5 (amended): the listener signature and emit-argument list derived for
a payload type P have zero parameters when P is the no-payload sentinel
`undefined`; when P is an array/tuple type (satisfying `extends any[]`) the
derived argument list is P itself, so a tuple's elements are spread into
that many separate parameters; and in all other cases — including
`ReadonlyArray`, which does not satisfy `extends any[]` — there is exactly
one parameter of type P. -/
theorem eventArgs_characterization :
    EventArgs TSType.undef = TSType.tuple [] ∧
      paramCount (EventArgs TSType.undef) = some 0 ∧
      (∀ l, EventArgs (TSType.tuple l) = TSType.tuple l ∧
        paramCount (EventArgs (TSType.tuple l)) = some l.length) ∧
      (∀ t, EventArgs (TSType.arr t) = TSType.arr t) ∧
      (∀ t, EventArgs (TSType.roArr t) = TSType.tuple [TSType.roArr t] ∧
        paramCount (EventArgs (TSType.roArr t)) = some 1) ∧
      EventArgs TSType.num = TSType.tuple [TSType.num] ∧
      EventArgs TSType.str = TSType.tuple [TSType.str] :=
  ⟨rfl, rfl, fun _ => ⟨rfl, rfl⟩, fun _ => rfl, fun _ => ⟨rfl, rfl⟩, rfl, rfl⟩

/-- C7: in the pure environment, `emit` synchronously invokes every
currently-listed listener for the name, in sequence order, passing each the
payload arguments, and returns true exactly when at least one listener
existed for the name at the time of the call. -/
theorem emit_result_and_coverage (d : Registry) (e : Name) (args : List Nat)
    (fuel : Nat) (hf : 1 ≤ fuel) :
    (emit fuel pureEnv d e args).2.1 = (getSeq d e).map (fun en => (en.lid, args)) ∧
      ((emit fuel pureEnv d e args).2.2.1 = true ↔ getSeq d e ≠ []) ∧
      (emit fuel pureEnv d e args).2.2.2 = Outcome.ok := by
  obtain ⟨f, rfl⟩ : ∃ f, fuel = f + 1 := ⟨fuel - 1, by omega⟩
  obtain ⟨h1, h2, h3, _⟩ := emit_pure_char d e args f
  refine ⟨h1, ?_, h3⟩
  rw [h2]
  simp

/-- Witness for C7 at a concrete two-listener registry. -/
theorem emit_result_and_coverage_witness :
    (emit 1 pureEnv dTwo "E" [9]).2.1 = (getSeq dTwo "E").map (fun en => (en.lid, [9])) ∧
      ((emit 1 pureEnv dTwo "E" [9]).2.2.1 = true ↔ getSeq dTwo "E" ≠ []) ∧
      (emit 1 pureEnv dTwo "E" [9]).2.2.2 = Outcome.ok :=
  emit_result_and_coverage dTwo "E" [9] 1 (by decide)

/-- C1: snapshot immunity of an in-progress dispatch.  Generally, under any
environment of registry-only listener bodies, `emit` invokes exactly the
snapshot captured at its start, in order, whatever removals or registrations
the listeners perform.  Concretely, with listeners 1, 2, 3 for "E" where
listener 2 removes itself and the not-yet-run listener 3 and registers the
new listener 4: the in-progress dispatch still invokes 1, 2 and 3 and does
not invoke 4, while the next emit invokes exactly 1 and 4. -/
theorem emit_snapshot_immunity :
    (∀ env : Env, LocalEnv env → ∀ (d : Registry) (e : Name) (args : List Nat) (f : Nat),
      (emit (f + 1) env d e args).2.1 = (getSeq d e).map (fun en => (en.lid, args)) ∧
        (emit (f + 1) env d e args).2.2.2 = Outcome.ok) ∧
      dThree = on' (on' (on' [] "E" 1) "E" 2) "E" 3 ∧
      (emit 1 envRemoveAdd dThree "E" [7]).2.1 = [(1, [7]), (2, [7]), (3, [7])] ∧
      (emit 1 envRemoveAdd dThree "E" [7]).1 = [("E", [Entry.mk 1 false, Entry.mk 4 false])] ∧
      (emit 1 envRemoveAdd (emit 1 envRemoveAdd dThree "E" [7]).1 "E" [7]).2.1 =
        [(1, [7]), (4, [7])] := by
  refine ⟨?_, by decide, by decide, by decide, by decide⟩
  intro env henv d e args f
  have h := runSeqWith_localEnv (runEmit f env) env henv e args (St.mk d []) (getSeq d e)
  constructor
  · simpa [emit, runEmit] using h.1
  · simpa [emit, runEmit] using h.2

/-- Witness for C1's general part at the concrete mutating environment. -/
theorem emit_snapshot_immunity_witness :
    (emit 1 envRemoveAdd dThree "E" [7]).2.1 =
        (getSeq dThree "E").map (fun en => (en.lid, [7])) ∧
      (emit 1 envRemoveAdd dThree "E" [7]).2.2.2 = Outcome.ok :=
  emit_snapshot_immunity.1 envRemoveAdd
    (by
      intro l c hc
      by_cases h : l = 2
      · simp [envRemoveAdd, h] at hc
        rcases hc with h1 | h1 | h1 <;> simp [h1, Cmd.isLocal]
      · simp [envRemoveAdd, h] at hc)
    dThree "E" [7] 0

/-- C4 (counterexample): with listeners 1 and 2 registered for "E" and
listener 1 removing listener 2 during the dispatch, listener 2 is removed
before its turn — visible in the final registry — yet IS invoked by that
same dispatch, refuting "never invoked by that dispatch". -/
theorem removed_before_turn_cex :
    (emit 1 (removerEnv "E" 1 2) dTwo "E" [7]).1 = [("E", [Entry.mk 1 false])] ∧
      (2, [7]) ∈ (emit 1 (removerEnv "E" 1 2) dTwo "E" [7]).2.1 := by
  exact ⟨by decide, by decide⟩

/-- C4 (amended): a listener removed from the registry before its turn in an
in-progress dispatch is still invoked by that dispatch (the snapshot is
immune to the removal); the removal takes effect for subsequent emits only,
which no longer invoke it. -/
theorem removed_before_turn_amended (e : Name) (a b : Nat) (args : List Nat)
    (hab : a ≠ b) :
    (emit 1 (removerEnv e a b) (on' (on' [] e a) e b) e args).2.1 =
        [(a, args), (b, args)] ∧
      (emit 1 (removerEnv e a b) (on' (on' [] e a) e b) e args).1 =
        [(e, [Entry.mk a false])] ∧
      (emit 1 (removerEnv e a b)
          (emit 1 (removerEnv e a b) (on' (on' [] e a) e b) e args).1 e args).2.1 =
        [(a, args)] := by
  have hba : b ≠ a := Ne.symm hab
  refine ⟨?_, ?_, ?_⟩ <;>
    simp [emit, runEmit, runSeqWith, runCmdsWith, removerEnv, on', addListener,
      appendEntry, getSeq, removeListener, removeFirstByLid, hab, hba]

/-- Witness for C4's amended claim at concrete listeners. -/
theorem removed_before_turn_amended_witness :
    (emit 1 (removerEnv "E" 1 2) (on' (on' [] "E" 1) "E" 2) "E" [7]).2.1 =
        [(1, [7]), (2, [7])] ∧
      (emit 1 (removerEnv "E" 1 2) (on' (on' [] "E" 1) "E" 2) "E" [7]).1 =
        [("E", [Entry.mk 1 false])] ∧
      (emit 1 (removerEnv "E" 1 2)
          (emit 1 (removerEnv "E" 1 2) (on' (on' [] "E" 1) "E" 2) "E" [7]).1 "E" [7]).2.1 =
        [(1, [7])] :=
  removed_before_turn_amended "E" 1 2 [7] (by decide)

/-- C6: with the three listeners `a`, `b`, `c` registered in that order for
`e` and listener `b` faulting when invoked, `emit` invokes `a`, then `b`,
skips `c`, leaves the registry unchanged, and propagates the fault to the
caller. -/
theorem fault_fail_fast (e : Name) (a b c : Nat) (args : List Nat)
    (hab : a ≠ b) (_hbc : b ≠ c) (_hac : a ≠ c) :
    emit 1 (throwerEnv b) (on' (on' (on' [] e a) e b) e c) e args =
      ([(e, [Entry.mk a false, Entry.mk b false, Entry.mk c false])],
        [(a, args), (b, args)], true, Outcome.fault) := by
  have hba : b ≠ a := Ne.symm hab
  simp [emit, runEmit, runSeqWith, runCmdsWith, throwerEnv, on', addListener,
    appendEntry, getSeq, hab, hba]

/-- Witness for C6 at concrete listeners. -/
theorem fault_fail_fast_witness :
    emit 1 (throwerEnv 2) (on' (on' (on' [] "E" 1) "E" 2) "E" 3) "E" [4] =
      ([("E", [Entry.mk 1 false, Entry.mk 2 false, Entry.mk 3 false])],
        [(1, [4]), (2, [4])], true, Outcome.fault) :=
  fault_fail_fast "E" 1 2 3 [4] (by decide) (by decide) (by decide)

/-- C2: once semantics.  After registering listeners `ls` via `on'` and then
`l` via `once` for `e` (`l` distinct from the others), the first `emit`
invokes `l` exactly once (after the listeners registered before it), the
dispatch removes the once-entry from the live registry, and a second `emit`
does not invoke `l` at all.  Moreover the once-entry is removed before its
invocation, so a re-entrant `emit` of `e` issued from inside the
once-listener itself does not re-invoke it: the whole dispatch invokes `l`
exactly once and completes normally. -/
theorem once_invoked_exactly_once (e : Name) (l : Nat) (args : List Nat)
    (ls : List Nat) (hl : l ∉ ls) :
    (((emit 1 pureEnv (once (ls.foldl (fun d x => on' d e x) []) e l) e args).2.1).map
        Prod.fst).count l = 1 ∧
      (emit 1 pureEnv (once (ls.foldl (fun d x => on' d e x) []) e l) e args).2.1 =
        ls.map (fun x => (x, args)) ++ [(l, args)] ∧
      getSeq (emit 1 pureEnv (once (ls.foldl (fun d x => on' d e x) []) e l) e args).1 e =
        ls.map (fun x => Entry.mk x false) ∧
      (((emit 1 pureEnv
            (emit 1 pureEnv (once (ls.foldl (fun d x => on' d e x) []) e l) e args).1
            e args).2.1).map Prod.fst).count l = 0 ∧
      emit 2 (reentrantEnv e args l) (once [] e l) e args =
        ([], [(l, args)], true, Outcome.ok) := by
  rw [once_foldl_on]
  have hSne : ∀ en ∈ ls.map (fun x => Entry.mk x false), en ≠ Entry.mk l true := by
    intro en hen
    rcases List.mem_map.mp hen with ⟨x, _, rfl⟩
    simp
  obtain ⟨h1, _, _, h4⟩ :=
    emit_pure_one [(e, ls.map (fun x => Entry.mk x false) ++ [Entry.mk l true])] e args
  have hget : getSeq [(e, ls.map (fun x => Entry.mk x false) ++ [Entry.mk l true])] e =
      ls.map (fun x => Entry.mk x false) ++ [Entry.mk l true] := by
    simp [getSeq]
  rw [hget] at h1 h4
  have htrace : (emit 1 pureEnv
      [(e, ls.map (fun x => Entry.mk x false) ++ [Entry.mk l true])] e args).2.1 =
      ls.map (fun x => (x, args)) ++ [(l, args)] := by
    rw [h1]
    simp
  have hreg : getSeq (emit 1 pureEnv
      [(e, ls.map (fun x => Entry.mk x false) ++ [Entry.mk l true])] e args).1 e =
      ls.map (fun x => Entry.mk x false) := by
    rw [h4, List.foldl_append, foldl_onceStep_nonOnce]
    simp only [List.foldl_cons, List.foldl_nil, if_pos]
    rw [getSeq_removeEntryExact_single, removeFirstExact_append_last _ _ hSne]
  have hcount1 : (((emit 1 pureEnv
      [(e, ls.map (fun x => Entry.mk x false) ++ [Entry.mk l true])] e args).2.1).map
        Prod.fst).count l = 1 := by
    rw [htrace]
    have hid : (Prod.fst ∘ fun x : Nat => (x, args)) = fun x => x := by
      funext x
      rfl
    simp [List.count_append, hid, List.count_eq_zero.mpr hl]
  have hsecond := (emit_pure_one (emit 1 pureEnv
      [(e, ls.map (fun x => Entry.mk x false) ++ [Entry.mk l true])] e args).1 e args).1
  have hcount2 : (((emit 1 pureEnv (emit 1 pureEnv
      [(e, ls.map (fun x => Entry.mk x false) ++ [Entry.mk l true])] e args).1
      e args).2.1).map Prod.fst).count l = 0 := by
    rw [hsecond, hreg]
    have hid2 : (Prod.fst ∘ (fun en : Entry => (en.lid, args)) ∘
        fun x : Nat => Entry.mk x false) = fun x => x := by
      funext x
      rfl
    simp [hid2, List.count_eq_zero.mpr hl]
  have hre : emit 2 (reentrantEnv e args l) (once [] e l) e args =
      ([], [(l, args)], true, Outcome.ok) := by
    simp [emit, runEmit, runSeqWith, runCmdsWith, reentrantEnv, once, appendEntry,
      getSeq, removeEntryExact, removeFirstExact]
  exact ⟨hcount1, htrace, hreg, hcount2, hre⟩

/-- Witness for C2 with two prior listeners 5 and 6 and once-listener 9. -/
theorem once_invoked_exactly_once_witness :
    (((emit 1 pureEnv (once ([5, 6].foldl (fun d x => on' d "E" x) []) "E" 9) "E" [1]).2.1).map
        Prod.fst).count 9 = 1 ∧
      (emit 1 pureEnv (once ([5, 6].foldl (fun d x => on' d "E" x) []) "E" 9) "E" [1]).2.1 =
        [5, 6].map (fun x => (x, [1])) ++ [(9, [1])] ∧
      getSeq (emit 1 pureEnv (once ([5, 6].foldl (fun d x => on' d "E" x) []) "E" 9)
          "E" [1]).1 "E" = [5, 6].map (fun x => Entry.mk x false) ∧
      (((emit 1 pureEnv
            (emit 1 pureEnv (once ([5, 6].foldl (fun d x => on' d "E" x) []) "E" 9) "E" [1]).1
            "E" [1]).2.1).map Prod.fst).count 9 = 0 ∧
      emit 2 (reentrantEnv "E" [1] 9) (once [] "E" 9) "E" [1] =
        ([], [(9, [1])], true, Outcome.ok) :=
  once_invoked_exactly_once "E" 9 [1] [5, 6] (by decide)

/-- C8: listeners registered via `on'`/`addListener`/`once` fire in
registration order on the next emit, and a listener added via
`prependListener` fires before all previously-registered listeners for the
name. -/
theorem dispatch_order :
    (∀ (e : Name) (args : List Nat) (ls : List (Nat × Bool)),
      (emit 1 pureEnv
          (ls.foldl (fun d2 p => if p.2 then once d2 e p.1 else on' d2 e p.1) []) e args).2.1 =
        ls.map (fun p => (p.1, args))) ∧
    (∀ (e : Name) (args : List Nat) (x : Nat) (ls : List Nat),
      (emit 1 pureEnv (prependListener (ls.foldl (fun d2 l => on' d2 e l) []) e x) e args).2.1 =
        (x, args) :: ls.map (fun l => (l, args))) := by
  constructor
  · intro e args ls
    have h := (emit_pure_one
      (ls.foldl (fun d2 p => if p.2 then once d2 e p.1 else on' d2 e p.1) []) e args).1
    rw [h, getSeq_foldl_reg]
    simp [getSeq, List.map_map]
  · intro e args x ls
    have h := (emit_pure_one
      (prependListener (ls.foldl (fun d2 l => on' d2 e l) []) e x) e args).1
    rw [h]
    show (getSeq (prependEntry (ls.foldl (fun d2 l => on' d2 e l) []) e (Entry.mk x false)) e).map
        (fun en => (en.lid, args)) = (x, args) :: ls.map (fun l => (l, args))
    rw [getSeq_prependEntry_self, getSeq_foldl_on]
    simp [getSeq, List.map_map]

/-- C3: `removeListener` removes exactly the first entry matching the
listener by identity, leaving every later matching entry in place, and is a
no-op on the whole registry when no entry for the name matches. -/
theorem removeListener_first_match (d : Registry) (e : Name) (l : Nat) (hWF : WF d) :
    getSeq (removeListener d e l) e = removeFirstByLid (getSeq d e) l ∧
      (∀ s1 en s2, getSeq d e = s1 ++ en :: s2 → (∀ x ∈ s1, x.lid ≠ l) → en.lid = l →
        getSeq (removeListener d e l) e = s1 ++ s2) ∧
      ((∀ x ∈ getSeq d e, x.lid ≠ l) → removeListener d e l = d) := by
  refine ⟨getSeq_removeListener d e l hWF.1, ?_, removeListener_no_op d e l hWF⟩
  intro s1 en s2 hsplit h1 hen
  rw [getSeq_removeListener d e l hWF.1, hsplit, removeFirstByLid_append s1 en s2 l h1 hen]

/-- Witness for C3 on a registry where listener 5 is registered twice for
"E": removal keeps the second (later) duplicate. -/
theorem removeListener_first_match_witness :
    getSeq (removeListener [("E", [Entry.mk 5 false, Entry.mk 5 false])] "E" 5) "E" =
        removeFirstByLid (getSeq [("E", [Entry.mk 5 false, Entry.mk 5 false])] "E") 5 ∧
      removeFirstByLid (getSeq [("E", [Entry.mk 5 false, Entry.mk 5 false])] "E") 5 =
        [Entry.mk 5 false] :=
  ⟨(removeListener_first_match [("E", [Entry.mk 5 false, Entry.mk 5 false])] "E" 5
      ⟨by decide, by decide⟩).1, by decide⟩

/-- C9: `eventNames` returns the empty sequence on a fresh registry; after
any history of register/deregister operations it lists exactly the names
with at least one registered listener; a first registration for a new name
appends that name; and emptying a name via `removeAllListeners` erases it
while preserving the order of the remaining names. -/
theorem eventNames_invariant :
    eventNames ([] : Registry) = [] ∧
      (∀ (ops : List Op) (e : Name),
        e ∈ eventNames (applyOps [] ops) ↔ 1 ≤ listenerCount (applyOps [] ops) e) ∧
      (∀ (d : Registry) (e : Name) (l : Nat), e ∉ eventNames d →
        eventNames (addListener d e l) = eventNames d ++ [e]) ∧
      (∀ (d : Registry) (e : Name),
        eventNames (removeAllListeners d (Option.some e)) =
          (eventNames d).filter (fun n => decide (n ≠ e))) := by
  refine ⟨rfl, ?_, ?_, ?_⟩
  · intro ops e
    have hWF : WF (applyOps [] ops) := WF_applyOps ops [] ⟨by simp, by simp⟩
    rw [mem_eventNames_iff _ e hWF.2]
    simp [listenerCount, Nat.one_le_iff_ne_zero, List.length_eq_zero]
  · intro d e l he
    simp only [eventNames] at he
    show (appendEntry d e (Entry.mk l false)).map Prod.fst = d.map Prod.fst ++ [e]
    rw [keys_appendEntry]
    simp [he]
  · intro d e
    exact keys_removeAll_some d e

/-- Witness for C9's first-registration clause at a concrete registry. -/
theorem eventNames_invariant_witness :
    eventNames (addListener [("A", [Entry.mk 1 false])] "B" 2) =
      eventNames [("A", [Entry.mk 1 false])] ++ ["B"] :=
  eventNames_invariant.2.2.1 [("A", [Entry.mk 1 false])] "B" 2 (by decide)

end EventsTyped
